import Mathlib

/-
Verification development for the Wordle solver in guesser.py.

The engine is modelled shallowly:
  * a word is a list of characters;
  * the mutable solver state (invalid letters, correct positions, misplaced
    letters, tried guesses, guess counter) becomes the structures Tracker and
    Engine;
  * feedback processing, candidate filtering, first-guess frequency analysis
    and the per-turn guess selection are translated function by function from
    the Python source;
  * Python exceptions (ValueError, IndexError from random.choice on an empty
    list or from indexing past the end of a string, NameError from the
    conditionally defined sorted_letters variable) become an explicit error
    type GErr, and random.choice consumes an explicit stream of numbers;
  * the unbounded anti-repeat while loop receives a fuel parameter; running
    out of fuel models divergence of the loop.

Only the auto mode of get_guess is modelled; the manual branch just forwards
console input and is outside the core per the specification.
-/

abbrev Word := List Char

inductive GErr : Type
  | valueError
  | indexError
  | nameError
  | outOfFuel
  deriving DecidableEq, Repr

/-- State of the constraint tracker: the fields _invalid_letters,
_correct_positions (a length-5 list whose empty entries become none) and
_misplaced_letters (the dict letter to set-of-positions becomes a finite set
of letter-position pairs; in the source an entry is created only together
with its first position, so the key set is the image of the first
projection). -/
structure Tracker : Type where
  invalid : Finset Char
  correct : List (Option Char)
  mis : Finset (Char × Nat)
  deriving DecidableEq

/-- Keys of the misplaced-letters mapping. -/
def misKeys (m : Finset (Char × Nat)) : Finset Char := m.image Prod.fst

/-- Initial tracker state, as set up in __init__ and restart_game. -/
def initTracker : Tracker :=
  { invalid := ∅, correct := List.replicate 5 none, mis := ∅ }

/-- One iteration of the feedback-parsing loop in get_guess, for feedback
character ch at position i against the previous guess g.  isAlpha marks an
exact match (sets the correct position and removes the letter from the
invalid set), a dash records a misplaced position, a plus adds the letter to
the invalid set unless the letter is already known misplaced or correct, and
any other character is skipped.  Indexing the guess out of range is the
IndexError the Python code would raise there. -/
def stepFB (g : Word) (t : Tracker) (i : Nat) (ch : Char) : Except GErr Tracker :=
  if ch.isAlpha then
    match g.get? i with
    | none => .error .indexError
    | some gc =>
        .ok { t with correct := t.correct.set i (some gc),
                     invalid := t.invalid.erase gc }
  else if ch = '-' then
    match g.get? i with
    | none => .error .indexError
    | some gc => .ok { t with mis := insert (gc, i) t.mis }
  else if ch = '+' then
    match g.get? i with
    | none => .error .indexError
    | some gc =>
        if gc ∉ misKeys t.mis ∧ some gc ∉ t.correct then
          .ok { t with invalid := insert gc t.invalid }
        else .ok t
  else .ok t

/-- The feedback-parsing loop, starting at position i. -/
def procFBAux (g : Word) : Tracker → Nat → List Char → Except GErr Tracker
  | t, _, [] => .ok t
  | t, i, ch :: rest =>
      match stepFB g t i ch with
      | .error e => .error e
      | .ok t2 => procFBAux g t2 (i + 1) rest

/-- Process one feedback string for the previous guess g (the for-loop over
enumerate(result) in get_guess). -/
def procFB (g : Word) (t : Tracker) (fb : List Char) : Except GErr Tracker :=
  procFBAux g t 0 fb

/-- The candidate-filter predicate from the list comprehension in get_guess:
no invalid letter occurs in the word, every confirmed position agrees, no
letter sits at a position recorded as excluded for it, and every misplaced
letter occurs in the word. -/
def wordQualifies (t : Tracker) (w : Word) : Bool :=
  decide (∀ l ∈ t.invalid, l ∉ w) &&
  ((List.range 5).all fun i =>
    match t.correct.getD i none with
    | none => true
    | some c => w.getD i '?' == c) &&
  ((List.range w.length).all fun i => decide ((w.getD i '?', i) ∉ t.mis)) &&
  decide (∀ l ∈ misKeys t.mis, l ∈ w)

/-- The filtered word list (the list comprehension preserves dictionary
order). -/
def filterWords (ws : List Word) (t : Tracker) : List Word :=
  ws.filter (wordQualifies t)

/-- Modelled from the spec, section 4.3 (Candidate Filter): a word qualifies
iff (a) it contains no letter in invalidLetters; (b) for every confirmed
position i, the word letter at i equals the confirmed letter; (c) for every
misplaced letter L and every excluded position p recorded for L, the word
letter at p is not L; (d) every letter in misplacedLetters occurs somewhere
in the word.  Used only to compare against the implementation predicate. -/
def specQualifies (t : Tracker) (w : Word) : Bool :=
  decide (∀ l ∈ t.invalid, l ∉ w) &&
  ((List.range 5).all fun i =>
    (t.correct.getD i none).all fun c => w.getD i '?' == c) &&
  decide (∀ x ∈ t.mis, w.getD x.2 '?' ≠ x.1) &&
  decide (∀ l ∈ misKeys t.mis, l ∈ w)

/- ------------------------------------------------------------------ -/
/- Frequency analysis (the analysis method). -/

/-- Increment the count of letter l in an insertion-ordered tally. -/
def bump (l : Char) : List (Char × Nat) → List (Char × Nat)
  | [] => [(l, 1)]
  | (c, n) :: rest =>
      if c = l then (c, n + 1) :: rest else (c, n) :: bump l rest

/-- Build an insertion-ordered tally of a character sequence (models a
Python dict used as a counter, which preserves first-occurrence order of its
keys). -/
def tallyGo : List Char → List (Char × Nat) → List (Char × Nat)
  | [], acc => acc
  | c :: cs, acc => tallyGo cs (bump c acc)

def tallyList (cs : List Char) : List (Char × Nat) := tallyGo cs []

/-- Count lookup in a tally, 0 when absent. -/
def lookupD (al : List (Char × Nat)) (c : Char) : Nat :=
  match al.find? (fun p => decide (p.1 = c)) with
  | some p => p.2
  | none => 0

/-- Key-membership test in a tally (the expression letter in dict(...)). -/
def containsKey (al : List (Char × Nat)) (c : Char) : Bool :=
  (al.find? (fun p => decide (p.1 = c))).isSome

/-- Stable insertion by descending key value; an element is placed before
the first element with a key not larger than its own, so elements with equal
keys keep their original relative order, matching Python sorted with
reverse=True. -/
def insertDescBy (key : Char → Nat) (c : Char) : List Char → List Char
  | [] => [c]
  | d :: ds => if key c ≥ key d then c :: d :: ds else d :: insertDescBy key c ds

/-- Stable sort by descending key value. -/
def sortDescBy (key : Char → Nat) : List Char → List Char
  | [] => []
  | c :: cs => insertDescBy key c (sortDescBy key cs)

/-- The inner loop of the first-guess placement: find the still-unfilled
position 0..4 with the highest per-position count for the letter, scanning
positions in order and keeping the earliest position among ties (the
strictly-greater comparison against the running best, initialised to -1). -/
def bestPosGo (posT : List (List (Char × Nat))) (chosen : List (Option Char)) (l : Char) :
    List Nat → Option Nat × Int → Option Nat × Int
  | [], acc => acc
  | pos :: rest, acc =>
      bestPosGo posT chosen l rest
        (if containsKey (posT.getD pos []) l ∧ chosen.getD pos none = none then
          (if (lookupD (posT.getD pos []) l : Int) > acc.2 then
            (some pos, (lookupD (posT.getD pos []) l : Int))
          else acc)
        else acc)

def bestPosAux (posT : List (List (Char × Nat))) (chosen : List (Option Char)) (l : Char) :
    Option Nat :=
  (bestPosGo posT chosen l (List.range 5) (none, -1)).1

/-- First placement phase of analysis: assign each top letter, in descending
overall-frequency order, to its best available position (skipping letters
with no available position).  The state is the partially chosen word
together with the list of used letters. -/
def phase1Aux (posT : List (List (Char × Nat))) :
    List Char → List (Option Char) × List Char → List (Option Char) × List Char
  | [], st => st
  | l :: ls, st =>
      phase1Aux posT ls
        (match bestPosAux posT st.1 l with
        | some p => (st.1.set p (some l), st.2 ++ [l])
        | none => st)

/-- Second phase of analysis: fill each remaining empty position, in
position order, with the first top letter not yet used. -/
def phase2Aux (top5 : List Char) :
    List Nat → List (Option Char) × List Char → List (Option Char) × List Char
  | [], st => st
  | i :: is, st =>
      phase2Aux top5 is
        (match st.1.getD i none with
        | some _ => st
        | none =>
          match top5.find? (fun l => decide (l ∉ st.2)) with
          | some l => (st.1.set i (some l), st.2 ++ [l])
          | none => st)

/-- The analysis method: per-position and overall letter tallies, the five
most frequent letters overall (stable descending sort, then take 5), greedy
placement, fill-in of leftovers, and the final join which simply drops the
positions that were never filled.  The per-position tallies are kept
unsorted: the source sorts them but then only performs dict lookups on them,
which are insensitive to the order. -/
def analysis (ws : List Word) : Word :=
  let ov := tallyList (ws.flatMap id)
  let posT := (List.range 5).map (fun j => tallyList (ws.map (fun w => w.getD j '?')))
  let top5 := (sortDescBy (lookupD ov) (ov.map Prod.fst)).take 5
  let st := phase2Aux top5 (List.range 5) (phase1Aux posT top5 (List.replicate 5 none, []))
  st.1.filterMap id

/- ------------------------------------------------------------------ -/
/- The engine and get_guess. -/

structure Engine : Type where
  wordList : List Word
  firstGuess : Word
  firstGuessLetters : Finset Char
  tried : List Word
  tracker : Tracker
  guessCount : Nat
  deriving DecidableEq

/-- Construction (auto mode): precompute the first guess and start with the
empty constraint state. -/
def mkEngine (ws : List Word) : Engine :=
  { wordList := ws
    firstGuess := analysis ws
    firstGuessLetters := (analysis ws).toFinset
    tried := []
    tracker := initTracker
    guessCount := 0 }

/-- restart_game: clear tried, the constraint state and the counter, keeping
the word list and the precomputed first guess. -/
def restartGame (e : Engine) : Engine :=
  { e with tried := []
           tracker := initTracker
           guessCount := 0
           firstGuessLetters := e.firstGuess.toFinset }

/-- random.choice on a list of words, consuming one number from the random
stream; on an empty list it is the IndexError the Python function raises. -/
def choiceL (xs : List Word) (rng : List Nat) : Except GErr (Word × List Nat) :=
  match xs with
  | [] => .error .indexError
  | _ => .ok (xs.getD (rng.headD 0 % xs.length) [], rng.drop 1)

/-- random.choice on the lowercase alphabet (used to pad the single-missing
position probe); never fails. -/
def choiceAlpha (rng : List Nat) : Char × List Nat :=
  ("abcdefghijklmnopqrstuvwxyz".toList.getD (rng.headD 0 % 26) 'a', rng.drop 1)

/-- Keep-first deduplication with an accumulator of already seen characters.
This models iteration over a Python set built from a character sequence; the
iteration order of a CPython set is unspecified, so the model fixes the
first-occurrence order.  Every place this is used feeds only into branches
whose verified properties are insensitive to that order. -/
def dedupFirstAux : List Char → List Char → List Char
  | [], _ => []
  | c :: cs, seen =>
      if c ∈ seen then dedupFirstAux cs seen else c :: dedupFirstAux cs (c :: seen)

/-- Number of remaining candidates containing the letter (the per-letter
occurrence count the source calls letter_entropy). -/
def occCount (ws : List Word) (l : Char) : Nat :=
  (ws.filter (fun w => decide (l ∈ w))).length

/-- Assembly of the synthetic second-guess probe: walk the letters in
descending occurrence-count order, append those that are neither first-guess
letters nor already used, and stop as soon as five letters are collected. -/
def assembleAux (fgl : Finset Char) : List Char → List Char → List Char
  | [], acc => acc
  | l :: ls, acc =>
      let acc2 := if l ∉ fgl ∧ l ∉ acc then acc ++ [l] else acc
      if acc2.length = 5 then acc2 else assembleAux fgl ls acc2

/-- The adaptive second guess (the guess_count == 1 branch).  With more than
two misplaced letters the sub-list keeps candidates containing all misplaced
letters and the variable sorted_letters is never defined, so reaching the
empty-sub-list fallback there is the NameError of the source.  Otherwise the
sub-list avoids all first-guess letters, and an empty sub-list leads to the
synthetic probe, falling back to a random candidate when fewer than five
letters qualify. -/
def secondGuess (tr : Tracker) (fgl : Finset Char) (filtered : List Word)
    (rng : List Nat) : Except GErr (Word × List Nat) :=
  if (misKeys tr.mis).card > 2 then
    match filtered.filter (fun w => decide (∀ l ∈ misKeys tr.mis, l ∈ w)) with
    | g :: _ => .ok (g, rng)
    | [] => .error .nameError
  else
    let sl := sortDescBy (occCount filtered) (dedupFirstAux (filtered.flatMap id) [])
    match filtered.filter (fun w => decide (∀ l ∈ w, l ∉ fgl)) with
    | g :: _ => .ok (g, rng)
    | [] =>
        let sg := assembleAux fgl sl []
        if sg.length < 5 then choiceL filtered rng
        else .ok (sg, rng)

/-- Padding loop of the single-missing-position probe: append random letters
until the list has five characters. -/
def padTo5 (cs : List Char) (rng : List Nat) : List Char × List Nat :=
  if cs.length < 5 then
    let p := choiceAlpha rng
    padTo5 (cs ++ [p.1]) p.2
  else (cs, rng)
  termination_by 5 - cs.length
  decreasing_by simp [List.length_append]; omega

/-- The single-missing-position probe: the distinct letters occupying the
unresolved position across candidates, padded with random letters to length
five, truncated to five. -/
def missingPosProbe (tr : Tracker) (filtered : List Word) (rng : List Nat) :
    Word × List Nat :=
  let mp := tr.correct.findIdx (fun o => o.isNone)
  let cands := dedupFirstAux (filtered.map (fun w => w.getD mp '?')) []
  let pad := padTo5 cands rng
  (pad.1.take 5, pad.2)

/-- Count of candidates differing from w in exactly one position. -/
def oneAwayScore (filtered : List Word) (w : Word) : Nat :=
  (filtered.filter (fun ow =>
    decide (((w.zip ow).filter (fun p => decide (p.1 ≠ p.2))).length = 1))).length

/-- Maximum by score with first-encountered tie-breaking (Python max over the
insertion-ordered dict of scores); empty input is the degenerate case. -/
def argmaxFirst (f : Word → Nat) : List Word → Except GErr Word
  | [] => .error .indexError
  | w :: ws => .ok (ws.foldl (fun b x => if f x > f b then x else b) w)

/-- The per-turn branch dispatch of get_guess after filtering, in source
order: the adaptive second guess, the single-missing-position shortcut, the
one-away scoring over a non-empty candidate list, and the final else branch
which calls random.choice on the (necessarily empty) candidate list. -/
def pickGuess (e : Engine) (tr : Tracker) (filtered : List Word)
    (rng : List Nat) : Except GErr (Word × List Nat) :=
  if e.guessCount = 1 then
    secondGuess tr e.firstGuessLetters filtered rng
  else if tr.correct.count none = 1 ∧ filtered.length > 3 ∧ e.guessCount < 6 then
    .ok (missingPosProbe tr filtered rng)
  else if filtered ≠ [] then
    (argmaxFirst (oneAwayScore filtered) filtered).map (fun g => (g, rng))
  else
    choiceL filtered rng

/-- Everything in a non-trivial get_guess call up to (and excluding) the
anti-repeat loop: take the last tried guess, check its length, process the
feedback, filter the word list and dispatch on the turn.  On the very first
call the precomputed first guess is returned and the feedback is ignored
(the filtered list is not defined on that path in the source; it is returned
as the empty list here and is never examined because tried is empty). -/
def selectStep (e : Engine) (result : List Char) (rng : List Nat) :
    Except GErr (Word × Engine × List Nat × List Word) :=
  match e.tried.getLast? with
  | none => .ok (e.firstGuess, e, rng, [])
  | some lastGuess =>
      if lastGuess.length = 5 then
        match procFB lastGuess e.tracker result with
        | .error err => .error err
        | .ok tr =>
            match pickGuess e tr (filterWords e.wordList tr) rng with
            | .error err => .error err
            | .ok (g, rng2) =>
                .ok (g, { e with tracker := tr }, rng2, filterWords e.wordList tr)
      else .error .valueError

/-- The anti-repeat loop: while the guess is already in tried, draw a random
candidate.  The source loop is unbounded; fuel measures the number of
re-draws the model is willing to make, and running out of fuel models
divergence. -/
def resample (tried filtered : List Word) : Word → List Nat → Nat → Except GErr (Word × List Nat)
  | g, rng, fuel =>
      if g ∈ tried then
        match fuel with
        | 0 => .error .outOfFuel
        | f + 1 =>
            match choiceL filtered rng with
            | .error err => .error err
            | .ok (g2, rng2) => resample tried filtered g2 rng2 f
      else .ok (g, rng)

/-- get_guess in auto mode: select a guess, run the anti-repeat loop, then
append the guess to tried and increment the counter. -/
def getGuess (e : Engine) (result : List Char) (rng : List Nat) (fuel : Nat) :
    Except GErr (Word × Engine) :=
  match selectStep e result rng with
  | .error err => .error err
  | .ok (g, e2, rng2, filtered) =>
      match resample e2.tried filtered g rng2 fuel with
      | .error err => .error err
      | .ok (g2, _) =>
          .ok (g2, { e2 with tried := e2.tried ++ [g2], guessCount := e2.guessCount + 1 })

/- ------------------------------------------------------------------ -/
/- Wordle feedback for a hidden target (modelling the consistency
   hypothesis of the monotonicity claim). -/

/-- Modelled from the spec, section 3 (Feedback): the standard Wordle
feedback computation, which the repository itself does not contain (feedback
is produced by the game).  Second pass of the standard algorithm: exact
matches echo the guessed letter, otherwise a letter still available in the
remaining multiset of unmatched target letters is marked present-elsewhere
and consumed, and anything else is marked absent. -/
def wfb2 : List (Char × Char) → List Char → List Char
  | [], _ => []
  | p :: ps, rem =>
      if p.1 = p.2 then p.1 :: wfb2 ps rem
      else if p.1 ∈ rem then '-' :: wfb2 ps (rem.erase p.1)
      else '+' :: wfb2 ps rem

/-- Target letters at the non-exact positions (the remaining multiset for
the second pass). -/
def initialRem (g t : Word) : List Char :=
  (g.zip t).filterMap (fun p => if p.1 = p.2 then none else some p.2)

/-- Feedback string produced by a Wordle game with hidden target t for guess
g (exact matches are the letter itself, present-elsewhere is a dash, absent
is a plus, matching the symbol set the solver parses). -/
def wordleFb (g t : Word) : List Char :=
  wfb2 (g.zip t) (initialRem g t)

/-- Tracker states reachable by processing any sequence of feedback strings
for arbitrary length-5 guesses, starting from the initial state.  Every
state an engine run can put the tracker in is of this form. -/
inductive TrackerReach : Tracker → Prop
  | init : TrackerReach initTracker
  | step (t t2 : Tracker) (g fb : List Char) :
      TrackerReach t → procFB g t fb = .ok t2 → TrackerReach t2

/-- Tracker states reachable by processing only feedback that a real Wordle
game with hidden target tg would produce, for arbitrary alphabetic length-5
guesses. -/
inductive ConsReach (tg : Word) : Tracker → Prop
  | init : ConsReach tg initTracker
  | step (t t2 : Tracker) (g : Word) :
      ConsReach tg t → g.length = 5 → (∀ c ∈ g, c.isAlpha = true) →
      procFB g t (wordleFb g tg) = .ok t2 → ConsReach tg t2

/-- Engine states reachable in auto mode from construction by successful
get_guess calls and restarts. -/
inductive EngineReach (ws : List Word) : Engine → Prop
  | init : EngineReach ws (mkEngine ws)
  | step (e e2 : Engine) (result : List Char) (rng : List Nat) (fuel : Nat) (g : Word) :
      EngineReach ws e → getGuess e result rng fuel = .ok (g, e2) → EngineReach ws e2
  | restart (e : Engine) : EngineReach ws e → EngineReach ws (restartGame e)

/-- Discriminators used to state error and success behaviour without
existential quantifiers. -/
def isOkE {ε α : Type} : Except ε α → Bool
  | .ok _ => true
  | .error _ => false

def isErrE {ε α : Type} : Except ε α → Bool
  | .ok _ => false
  | .error _ => true

/-- Letters recorded at a confirmed position are never in the invalid set. -/
def cpInv (t : Tracker) : Prop := ∀ c : Char, some c ∈ t.correct → c ∉ t.invalid

instance {ε α : Type} [DecidableEq ε] [DecidableEq α] : DecidableEq (Except ε α) := fun a b =>
  match a, b with
  | .ok x, .ok y =>
      if h : x = y then .isTrue (by rw [h]) else .isFalse (fun hc => by cases hc; exact h rfl)
  | .error x, .error y =>
      if h : x = y then .isTrue (by rw [h]) else .isFalse (fun hc => by cases hc; exact h rfl)
  | .ok _, .error _ => .isFalse (fun hc => by cases hc)
  | .error _, .ok _ => .isFalse (fun hc => by cases hc)

/- ------------------------------------------------------------------ -/
/- Generic list helpers. -/

theorem getD_set_eq {α : Type} (l : List α) (k : Nat) (v d : α) (h : k < l.length) :
    (l.set k v).getD k d = v := by
  rw [List.getD_eq_getElem?_getD, List.getElem?_set_self h]
  rfl

theorem getD_set_ne {α : Type} (l : List α) (i k : Nat) (v d : α) (h : k ≠ i) :
    (l.set k v).getD i d = l.getD i d := by
  rw [List.getD_eq_getElem?_getD, List.getElem?_set_ne h, ← List.getD_eq_getElem?_getD]

theorem drop_cons_getElem? {α : Type} {l : List α} {k : Nat} {c : α} {rest : List α}
    (h : l.drop k = c :: rest) : l[k]? = some c := by
  have h0 := List.getElem?_drop l k 0
  rw [h] at h0
  simpa using h0.symm

theorem drop_cons_getD {α : Type} {l : List α} {k : Nat} {c : α} {rest : List α} (d : α)
    (h : l.drop k = c :: rest) : l.getD k d = c := by
  rw [List.getD_eq_getElem?_getD, drop_cons_getElem? h]
  rfl

theorem drop_cons_drop {α : Type} {l : List α} {k : Nat} {c : α} {rest : List α}
    (h : l.drop k = c :: rest) : l.drop (k + 1) = rest := by
  have h1 : l.drop (k + 1) = (l.drop k).drop 1 := by
    rw [List.drop_drop]
  rw [h1, h]
  rfl

theorem mem_of_drop_cons {α : Type} {l : List α} {k : Nat} {c : α} {rest : List α}
    (h : l.drop k = c :: rest) : c ∈ l := by
  have hs := (List.drop_sublist k l).subset
  exact hs (h ▸ List.mem_cons_self c rest)

theorem mem_set_elim {α : Type} {l : List α} {n : Nat} {b a : α} (h : a ∈ l.set n b) :
    a = b ∨ a ∈ l := by
  rcases List.mem_iff_getElem?.mp h with ⟨i, hi⟩
  by_cases hin : i = n
  · subst hin
    by_cases hlen : i < l.length
    · rw [List.getElem?_set_self hlen] at hi
      exact Or.inl (Option.some.injEq _ _ ▸ hi).symm
    · rw [List.getElem?_eq_none (by simpa using Nat.le_of_not_lt hlen)] at hi
      cases hi
  · rw [List.getElem?_set_ne (fun he => hin he.symm)] at hi
    exact Or.inr (List.mem_iff_getElem?.mpr ⟨i, hi⟩)

theorem mem_set_of_mem {α : Type} {l : List α} {n : Nat} {b a : α}
    (hmem : a ∈ l) (hne : l.getD n b ≠ a) (v : α) : a ∈ l.set n v ∨ a = v := by
  rcases List.mem_iff_getElem?.mp hmem with ⟨i, hi⟩
  by_cases hin : i = n
  · subst hin
    exfalso
    apply hne
    rw [List.getD_eq_getElem?_getD, hi]
    rfl
  · exact Or.inl (List.mem_iff_getElem?.mpr ⟨i, by rw [List.getElem?_set_ne (fun he => hin he.symm)]; exact hi⟩)

/- ------------------------------------------------------------------ -/
/- C1: the candidate filter agrees with the specified predicate. -/

theorem qualifies_eq_spec (t : Tracker) (w : Word) (hw : w.length = 5)
    (hp : ∀ x ∈ t.mis, x.2 < 5) :
    wordQualifies t w = specQualifies t w := by
  unfold wordQualifies specQualifies
  have hB : ((List.range 5).all fun i =>
        match t.correct.getD i none with
        | none => true
        | some c => w.getD i '?' == c)
      = ((List.range 5).all fun i =>
        (t.correct.getD i none).all fun c => w.getD i '?' == c) := by
    apply congrArg
    funext i
    cases t.correct.getD i none <;> rfl
  have hC : ((List.range w.length).all fun i => decide ((w.getD i '?', i) ∉ t.mis))
      = decide (∀ x ∈ t.mis, w.getD x.2 '?' ≠ x.1) := by
    rw [Bool.eq_iff_iff]
    simp only [List.all_eq_true, List.mem_range, decide_eq_true_eq]
    constructor
    · intro h x hx
      intro hcontra
      have hlt : x.2 < w.length := hw ▸ hp x hx
      have := h x.2 hlt
      apply this
      have : (w.getD x.2 '?', x.2) = x := by
        rw [hcontra]
      rw [this]
      exact hx
    · intro h i _ hmem
      exact h _ hmem rfl
  rw [hB, hC]

/-- C1: for every dictionary and every tracker state whose recorded misplaced
positions lie in range, the candidate list equals the dictionary filtered by
the specified predicate (no invalid letter, confirmed positions agree, no
letter at an excluded position, every misplaced letter present), and it
preserves dictionary order (it is a sublist of the dictionary). -/
theorem C1_candidate_filter (ws : List Word) (t : Tracker)
    (hw : ∀ w ∈ ws, w.length = 5) (hp : ∀ x ∈ t.mis, x.2 < 5) :
    filterWords ws t = ws.filter (specQualifies t) ∧ (filterWords ws t).Sublist ws := by
  constructor
  · exact List.filter_congr (fun w hmem => qualifies_eq_spec t w (hw w hmem) hp)
  · exact List.filter_sublist ws

/-- Witness for C1 at a concrete dictionary and tracker state. -/
theorem C1_candidate_filter_witness :
    filterWords ["abcde".toList] initTracker
        = ["abcde".toList].filter (specQualifies initTracker) ∧
      (filterWords ["abcde".toList] initTracker).Sublist ["abcde".toList] :=
  C1_candidate_filter ["abcde".toList] initTracker (by decide) (by decide)

/- ------------------------------------------------------------------ -/
/- C2: which letters can remain in the invalid set. -/

theorem stepFB_cpInv {g : Word} {t : Tracker} {i : Nat} {ch : Char} {t2 : Tracker}
    (h : stepFB g t i ch = .ok t2) (hI : cpInv t) : cpInv t2 := by
  unfold stepFB at h
  split_ifs at h with h1 h2 h3
  · cases hg : g.get? i with
    | none => rw [hg] at h; cases h
    | some gc =>
        rw [hg] at h
        cases h
        intro c hc hcinv
        rcases Finset.mem_erase.mp hcinv with ⟨hne, hcin⟩
        rcases mem_set_elim hc with he | hmem
        · exact hne (Option.some.injEq _ _ ▸ he)
        · exact hI c hmem hcin
  · cases hg : g.get? i with
    | none => rw [hg] at h; cases h
    | some gc =>
        rw [hg] at h
        cases h
        exact hI
  · cases hg : g.get? i with
    | none => rw [hg] at h; cases h
    | some gc =>
        simp only [hg] at h
        split_ifs at h with h4
        · cases h
          intro c hc hcinv
          rcases Finset.mem_insert.mp hcinv with he | hcin
          · exact h4.2 (he ▸ hc)
          · exact hI c hc hcin
        · cases h
          exact hI
  · cases h
    exact hI

theorem procFBAux_cpInv {g : Word} {fb : List Char} :
    ∀ {t : Tracker} {i : Nat} {t2 : Tracker},
      procFBAux g t i fb = .ok t2 → cpInv t → cpInv t2 := by
  induction fb with
  | nil =>
      intro t i t2 h hI
      cases h
      exact hI
  | cons ch rest ih =>
      intro t i t2 h hI
      unfold procFBAux at h
      cases hs : stepFB g t i ch with
      | error e => rw [hs] at h; cases h
      | ok t1 =>
          rw [hs] at h
          exact ih h (stepFB_cpInv hs hI)

theorem trackerReach_cpInv {t : Tracker} (hr : TrackerReach t) : cpInv t := by
  induction hr with
  | init =>
      intro c hc
      rcases List.mem_replicate.mp hc with ⟨_, he⟩
      cases he
  | step t t2 g fb _ hok ih =>
      exact procFBAux_cpInv hok ih

/-- C2, amended: in every reachable tracker state, no letter recorded at a
confirmed position is a member of the invalid set (exact feedback removes
the letter from the invalid set and an absent marking never adds a letter
that is recorded correct).  The misplaced half of the original claim fails:
see the counterexample. -/
theorem C2_correct_letters_not_invalid (t : Tracker) (hr : TrackerReach t)
    (c : Char) (hc : some c ∈ t.correct) : c ∉ t.invalid :=
  trackerReach_cpInv hr c hc

/-- Witness for C2 at a concrete reachable state: after all-exact feedback
for the guess abcde, the letter a is confirmed and is not invalid. -/
theorem C2_correct_letters_not_invalid_witness :
    'a' ∉ (Tracker.mk ∅ [some 'a', some 'b', some 'c', some 'd', some 'e'] ∅).invalid :=
  C2_correct_letters_not_invalid _
    (TrackerReach.step _ _ ("abcde".toList) ("abcde".toList) TrackerReach.init (by decide))
    'a' (by decide)

/-- C2, counterexample: in a real auto-mode run (two get_guess calls from a
fresh engine on the dictionary [efghi, aabcd]), the second guess is aabcd;
feedback that marks the first a absent and the second a present-elsewhere
leaves a in the invalid set while a is also a key of the misplaced map,
contradicting the claimed invariant. -/
theorem C2_counterexample :
    (do
      let r1 ← getGuess (mkEngine ["efghi".toList, "aabcd".toList]) [] [0] 50
      let r2 ← getGuess r1.2 ("?++++".toList) [0] 50
      let t ← procFB r2.1 r2.2.tracker ("+-+++".toList)
      pure (decide ('a' ∈ t.invalid) && decide ('a' ∈ misKeys t.mis))) = Except.ok true := by
  decide

/- ------------------------------------------------------------------ -/
/- C5: what the length check actually validates. -/

theorem stepFB_ok_of_get {g : Word} {t : Tracker} {i : Nat} {ch : Char} {gc : Char}
    (hg : g.get? i = some gc) : ∃ t2, stepFB g t i ch = .ok t2 := by
  unfold stepFB
  split_ifs with h1 h2 h3
  · rw [hg]
    exact ⟨_, rfl⟩
  · rw [hg]
    exact ⟨_, rfl⟩
  · simp only [hg]
    split_ifs with h4 <;> exact ⟨_, rfl⟩
  · exact ⟨_, rfl⟩

theorem procFBAux_isOk {g : Word} {fb : List Char} :
    ∀ {t : Tracker} {i : Nat}, i + fb.length ≤ g.length →
      isOkE (procFBAux g t i fb) = true := by
  induction fb with
  | nil =>
      intro t i _
      rfl
  | cons ch rest ih =>
      intro t i hlen
      have hi : i < g.length := by
        simp only [List.length_cons] at hlen
        omega
      have hg : ∃ gc, g.get? i = some gc := by
        cases hval : g.get? i with
        | none =>
            rw [List.get?_eq_getElem?] at hval
            rw [List.getElem?_eq_none_iff] at hval
            omega
        | some gc => exact ⟨gc, rfl⟩
      rcases hg with ⟨gc, hg⟩
      rcases @stepFB_ok_of_get g t i ch gc hg with ⟨t2, hstep⟩
      unfold procFBAux
      rw [hstep]
      apply ih
      simp only [List.length_cons] at hlen
      omega

/-- C5, amended: get_guess validates only the length of the previous guess,
raising the ValueError when that differs from 5; the feedback string itself
is never length-checked, and feedback of length at most 5 is processed
silently, position by position, with no error. -/
theorem C5_feedback_not_validated :
    (∀ (t : Tracker) (g : Word) (fb : List Char), g.length = 5 → fb.length ≤ 5 →
        isOkE (procFB g t fb) = true) ∧
    (∀ (e : Engine) (result : List Char) (rng : List Nat) (fuel : Nat) (lg : Word),
        e.tried.getLast? = some lg → lg.length ≠ 5 →
        getGuess e result rng fuel = .error .valueError) := by
  constructor
  · intro t g fb hg hfb
    exact procFBAux_isOk (by omega)
  · intro e result rng fuel lg hl hne
    unfold getGuess selectStep
    rw [hl]
    simp [hne]

/-- Witness for C5 at concrete inputs: feedback of length 3 against a
5-letter previous guess is processed without error, and a previous guess of
length 3 makes the call fail with the ValueError. -/
theorem C5_feedback_not_validated_witness :
    isOkE (procFB ("abcde".toList) initTracker ("+++".toList)) = true ∧
    getGuess (Engine.mk [] [] ∅ ["abc".toList] initTracker 1) [] [] 0
      = Except.error GErr.valueError :=
  ⟨C5_feedback_not_validated.1 initTracker ("abcde".toList) ("+++".toList)
      (by decide) (by decide),
   C5_feedback_not_validated.2 (Engine.mk [] [] ∅ ["abc".toList] initTracker 1) [] [] 0
      ("abc".toList) (by decide) (by decide)⟩

/-- C5, counterexample: a real auto-mode run in which the second call
receives feedback of length 3; the call does not fail, the malformed
feedback is silently processed and a guess is returned. -/
theorem C5_counterexample :
    (do
      let r1 ← getGuess (mkEngine ["stuvw".toList, "xyzab".toList]) [] [0] 50
      let r2 ← getGuess r1.2 ("+++".toList) [0] 50
      pure r2.1) = Except.ok ("xyzab".toList) := by
  decide

/- ------------------------------------------------------------------ -/
/- C3: behaviour when the filtered candidate list is empty. -/

theorem pickGuess_empty_isErr (e : Engine) (tr : Tracker) (rng : List Nat) :
    isErrE (pickGuess e tr [] rng) = true := by
  unfold pickGuess
  split_ifs with h1 h2 h3
  · unfold secondGuess
    split_ifs with hcard
    · simp only [List.filter_nil]
      rfl
    · simp only [List.filter_nil, List.flatMap_nil]
      rfl
  · exfalso
    have := h2.2.1
    simp at this
  · exact absurd rfl h3
  · rfl

/-- C3, amended: on every non-first auto-mode call whose filtered candidate
list is empty, get_guess fails with an unguarded exception (the IndexError
of random.choice on the empty list, or the NameError of the undefined
sorted_letters variable) instead of raising a defined EmptyCandidateSet
condition; no such condition exists in the code. -/
theorem C3_empty_candidates_error (e : Engine) (result : List Char) (rng : List Nat)
    (fuel : Nat) (lg : Word) (tr : Tracker)
    (hl : e.tried.getLast? = some lg) (h5 : lg.length = 5)
    (hproc : procFB lg e.tracker result = .ok tr)
    (hempty : filterWords e.wordList tr = []) :
    isErrE (getGuess e result rng fuel) = true := by
  unfold getGuess selectStep
  rw [hl]
  simp only [h5, if_pos, hproc]
  have herr := pickGuess_empty_isErr e tr rng
  rw [← hempty] at herr
  cases hp : pickGuess e tr (filterWords e.wordList tr) rng with
  | error err => simp only [hp]; rfl
  | ok p =>
      rw [hp] at herr
      cases herr

/-- Witness for C3 at a concrete engine state with an empty candidate set. -/
theorem C3_empty_candidates_error_witness :
    isErrE (getGuess
      (Engine.mk [("vwxyz".toList)] [] ∅ [("vwxyz".toList)] initTracker 2)
      ("+++++".toList) [0] 5) = true :=
  C3_empty_candidates_error _ _ _ _ ("vwxyz".toList)
    (Tracker.mk ({'z', 'y', 'x', 'w', 'v'} : Finset Char) (List.replicate 5 none) ∅)
    (by decide) (by decide) rfl (by decide)

/-- C3, counterexample: a real auto-mode run reaching an empty candidate set
on the third call; the call fails with the IndexError of random.choice over
the empty list, not with a defined recoverable EmptyCandidateSet signal. -/
theorem C3_counterexample :
    (do
      let r1 ← getGuess (mkEngine ["efghi".toList, "aabcd".toList]) [] [0] 50
      let r2 ← getGuess r1.2 ("?++++".toList) [0] 50
      let r3 ← getGuess r2.2 ("+-+++".toList) [0] 50
      pure r3.1) = Except.error GErr.indexError := by
  decide

/- ------------------------------------------------------------------ -/
/- C8: the anti-repeat loop, and C10: the tried/guessCount invariant. -/

theorem choiceL_mem {xs : List Word} {rng : List Nat} {g : Word} {rng2 : List Nat}
    (h : choiceL xs rng = .ok (g, rng2)) : g ∈ xs := by
  unfold choiceL at h
  cases xs with
  | nil => cases h
  | cons x rest =>
      simp only [Except.ok.injEq, Prod.mk.injEq] at h
      have hlt : (rng.headD 0) % (x :: rest).length < (x :: rest).length :=
        Nat.mod_lt _ (by simp)
      rw [← h.1]
      rw [List.getD_eq_getElem?_getD, List.getElem?_eq_getElem hlt]
      exact List.getElem_mem hlt

theorem resample_fresh {tried filtered : List Word} :
    ∀ {fuel : Nat} {g : Word} {rng : List Nat} {g2 : Word} {rng2 : List Nat},
      resample tried filtered g rng fuel = .ok (g2, rng2) → g2 ∉ tried := by
  intro fuel
  induction fuel with
  | zero =>
      intro g rng g2 rng2 h
      unfold resample at h
      by_cases hmem : g ∈ tried
      · rw [if_pos hmem] at h
        cases h
      · rw [if_neg hmem] at h
        simp only [Except.ok.injEq, Prod.mk.injEq] at h
        obtain ⟨h1, h2⟩ := h
        subst h1
        exact hmem
  | succ f ih =>
      intro g rng g2 rng2 h
      unfold resample at h
      by_cases hmem : g ∈ tried
      · rw [if_pos hmem] at h
        cases hc : choiceL filtered rng with
        | error err => rw [hc] at h; cases h
        | ok p =>
            rw [hc] at h
            exact ih h
      · rw [if_neg hmem] at h
        simp only [Except.ok.injEq, Prod.mk.injEq] at h
        obtain ⟨h1, h2⟩ := h
        subst h1
        exact hmem

theorem resample_all_tried {tried filtered : List Word}
    (hsub : ∀ w ∈ filtered, w ∈ tried) (hne : filtered ≠ []) :
    ∀ (fuel : Nat) (g : Word) (rng : List Nat), g ∈ tried →
      resample tried filtered g rng fuel = .error .outOfFuel := by
  intro fuel
  induction fuel with
  | zero =>
      intro g rng hmem
      unfold resample
      rw [if_pos hmem]
  | succ f ih =>
      intro g rng hmem
      unfold resample
      rw [if_pos hmem]
      cases hc : choiceL filtered rng with
      | error err =>
          exfalso
          unfold choiceL at hc
          cases hfe : filtered with
          | nil => exact hne hfe
          | cons x rest => rw [hfe] at hc; cases hc
      | ok p =>
          exact ih p.1 p.2 (hsub p.1 (choiceL_mem (by rw [hc])))

theorem selectStep_preserves {e : Engine} {result : List Char} {rng : List Nat}
    {g : Word} {e2 : Engine} {rng2 : List Nat} {filtered : List Word}
    (h : selectStep e result rng = .ok (g, e2, rng2, filtered)) :
    e2.tried = e.tried ∧ e2.guessCount = e.guessCount := by
  unfold selectStep at h
  cases hl : e.tried.getLast? with
  | none =>
      rw [hl] at h
      simp only [Except.ok.injEq, Prod.mk.injEq] at h
      rw [← h.2.1]
      exact ⟨rfl, rfl⟩
  | some lg =>
      simp only [hl] at h
      split_ifs at h with h5
      · cases hp : procFB lg e.tracker result with
        | error err => rw [hp] at h; cases h
        | ok tr =>
            simp only [hp] at h
            cases hq : pickGuess e tr (filterWords e.wordList tr) rng with
            | error err => rw [hq] at h; cases h
            | ok p =>
                simp only [hq, Except.ok.injEq, Prod.mk.injEq] at h
                obtain ⟨h1, h2, h3, h4⟩ := h
                subst h2
                exact ⟨rfl, rfl⟩

theorem getGuess_ok_shape {e : Engine} {result : List Char} {rng : List Nat}
    {fuel : Nat} {g2 : Word} {e2 : Engine}
    (h : getGuess e result rng fuel = .ok (g2, e2)) :
    e2.tried = e.tried ++ [g2] ∧ e2.guessCount = e.guessCount + 1 ∧ g2 ∉ e.tried := by
  unfold getGuess at h
  cases hs : selectStep e result rng with
  | error err => rw [hs] at h; cases h
  | ok q =>
      obtain ⟨g1, e1, rng1, filtered⟩ := q
      simp only [hs] at h
      cases hr : resample e1.tried filtered g1 rng1 fuel with
      | error err => rw [hr] at h; cases h
      | ok p =>
          obtain ⟨g3, rng3⟩ := p
          simp only [hr, Except.ok.injEq, Prod.mk.injEq] at h
          obtain ⟨h1, h2⟩ := h
          subst h1
          subst h2
          rcases selectStep_preserves hs with ⟨ht, hc⟩
          have hfresh : g3 ∉ e1.tried := resample_fresh hr
          rw [ht] at hfresh
          refine ⟨?_, ?_, hfresh⟩
          · show e1.tried ++ [g3] = e.tried ++ [g3]
            rw [ht]
          · show e1.guessCount + 1 = e.guessCount + 1
            rw [hc]

/-- C8, amended: the anti-repeat loop is not guaranteed to terminate: when
every filtered candidate is already in tried and the selected guess is too,
no number of iterations produces an unseen word (the loop diverges; in the
fuel model every fuel value yields the out-of-fuel outcome).  Whenever the
loop does terminate, the resulting guess is not in tried, so tried stays
free of duplicates after every successful call. -/
theorem C8_antirepeat_loop :
    (∀ (tried filtered : List Word) (g : Word) (rng : List Nat) (fuel : Nat),
        g ∈ tried → (∀ w ∈ filtered, w ∈ tried) → filtered ≠ [] →
        resample tried filtered g rng fuel = .error .outOfFuel) ∧
    (∀ (tried filtered : List Word) (g : Word) (rng : List Nat) (fuel : Nat)
        (g2 : Word) (rng2 : List Nat),
        resample tried filtered g rng fuel = .ok (g2, rng2) → g2 ∉ tried) ∧
    (∀ (e : Engine) (result : List Char) (rng : List Nat) (fuel : Nat)
        (g2 : Word) (e2 : Engine),
        getGuess e result rng fuel = .ok (g2, e2) → e.tried.Nodup → e2.tried.Nodup) := by
  refine ⟨?_, ?_, ?_⟩
  · intro tried filtered g rng fuel hg hsub hne
    exact resample_all_tried hsub hne fuel g rng hg
  · intro tried filtered g rng fuel g2 rng2 h
    exact resample_fresh h
  · intro e result rng fuel g2 e2 h hnd
    rcases getGuess_ok_shape h with ⟨ht, _, hfresh⟩
    rw [ht]
    simp [List.nodup_append, hnd, hfresh]

/-- Witness for C8 at concrete inputs: with the only candidate already
tried, three iterations of fuel do not terminate the loop. -/
theorem C8_antirepeat_loop_witness :
    resample [("aaaaa".toList)] [("aaaaa".toList)] ("aaaaa".toList) [0] 3
      = Except.error GErr.outOfFuel :=
  C8_antirepeat_loop.1 [("aaaaa".toList)] [("aaaaa".toList)] ("aaaaa".toList) [0] 3
    (by decide) (by decide) (by decide)

/-- C8, counterexample: a real auto-mode run (dictionary with the single
word abcde, all-exact feedback on the second call) in which the selected
guess is already in tried and the only candidate equals it; the anti-repeat
loop never finds an unseen word, so the call does not terminate with a fresh
guess (modelled as running out of fuel). -/
theorem C8_counterexample :
    (do
      let r1 ← getGuess (mkEngine ["abcde".toList]) [] [0] 10
      let r2 ← getGuess r1.2 ("abcde".toList) [0, 0, 0] 10
      pure r2.1) = Except.error GErr.outOfFuel := by
  decide

/-- C10: in every auto-mode reachable engine state, guess_count equals the
number of tried guesses: construction and restart reset both together, and
every successful get_guess call appends exactly one guess and increments the
counter by one. -/
theorem C10_guess_count_matches_tried (ws : List Word) (e : Engine)
    (hr : EngineReach ws e) : e.guessCount = e.tried.length := by
  induction hr with
  | init => rfl
  | step e e2 result rng fuel g _ hok ih =>
      rcases getGuess_ok_shape hok with ⟨ht, hc, _⟩
      rw [ht, hc, List.length_append, ih]
      rfl
  | restart e _ _ => rfl

/-- Witness for C10 at the freshly constructed engine. -/
theorem C10_guess_count_matches_tried_witness :
    (mkEngine [("abcde".toList)]).guessCount = (mkEngine [("abcde".toList)]).tried.length :=
  C10_guess_count_matches_tried [("abcde".toList)] _ EngineReach.init

/-- C9: evaluation of the failing input.  On a turn-1 call with more than
two misplaced letters and an empty filtered candidate list, the fallback
references the variable sorted_letters, which is defined only in the other
branch, so the call dies with a NameError instead of assembling the
synthetic probe. -/
theorem C9_nameerror_evaluation :
    (do
      let r1 ← getGuess (mkEngine ["abcde".toList]) [] [0] 10
      let r2 ← getGuess r1.2 ("---++".toList) [0] 10
      pure r2.1) = Except.error GErr.nameError := by
  decide

/- ------------------------------------------------------------------ -/
/- C7: all-exact feedback. -/

theorem wordQualifies_eq_true_iff (t : Tracker) (w : Word) :
    wordQualifies t w = true ↔
      ((∀ l ∈ t.invalid, l ∉ w) ∧
       (∀ i, i < 5 → ∀ c, t.correct.getD i none = some c → w.getD i '?' = c) ∧
       (∀ i, i < w.length → (w.getD i '?', i) ∉ t.mis) ∧
       (∀ l ∈ misKeys t.mis, l ∈ w)) := by
  unfold wordQualifies
  simp only [Bool.and_eq_true, List.all_eq_true, List.mem_range, decide_eq_true_eq]
  constructor
  · rintro ⟨⟨⟨h1, h2⟩, h3⟩, h4⟩
    refine ⟨h1, ?_, h3, h4⟩
    intro i hi c hc
    have hb := h2 i hi
    rw [hc] at hb
    exact beq_iff_eq.mp hb
  · rintro ⟨h1, h2, h3, h4⟩
    refine ⟨⟨⟨h1, ?_⟩, h3⟩, h4⟩
    intro i hi
    cases hc : t.correct.getD i none with
    | none => rfl
    | some c =>
        simp only []
        exact beq_iff_eq.mpr (h2 i hi c hc)

theorem eq_of_getD_eq {w g : Word} (hw : w.length = 5) (hg : g.length = 5)
    (h : ∀ i, i < 5 → w.getD i '?' = g.getD i '?') : w = g := by
  apply List.ext_getElem (by omega)
  intro i h1 h2
  have hi : i < 5 := by omega
  have := h i hi
  rw [List.getD_eq_getElem?_getD, List.getD_eq_getElem?_getD,
      List.getElem?_eq_getElem h1, List.getElem?_eq_getElem h2] at this
  exact this

theorem filter_eq_singleton {ws : List Word} {g : Word} {p : Word → Bool} :
    ws.Nodup → g ∈ ws → (∀ w ∈ ws, (p w = true ↔ w = g)) → ws.filter p = [g] := by
  induction ws with
  | nil => intro _ hg; cases hg
  | cons x rest ih =>
      intro hnd hg hiff
      have hx : x ∉ rest := (List.nodup_cons.mp hnd).1
      have hrest : rest.Nodup := (List.nodup_cons.mp hnd).2
      rcases List.mem_cons.mp hg with hgx | hgr
      · have hpx : p x = true := (hiff x (List.mem_cons_self x rest)).mpr hgx.symm
        rw [List.filter_cons_of_pos hpx]
        have hnone : rest.filter p = [] := by
          rw [List.filter_eq_nil_iff]
          intro w hw hpw
          have hwg := (hiff w (List.mem_cons_of_mem x hw)).mp hpw
          exact hx ((hwg.trans hgx) ▸ hw)
        rw [hnone, hgx]
      · have hxg : x ≠ g := fun he => hx (he ▸ hgr)
        have hpx : ¬ p x = true := fun hp => hxg ((hiff x (List.mem_cons_self x rest)).mp hp)
        rw [List.filter_cons_of_neg (by simpa using hpx)]
        exact ih hrest hgr (fun w hw => hiff w (List.mem_cons_of_mem x hw))

theorem procFB_allExact_aux (g : Word) (ha : ∀ c ∈ g, c.isAlpha = true) :
    ∀ (gs : List Char) (k : Nat) (t t2 : Tracker),
      gs = g.drop k → t.correct.length = 5 → k + gs.length ≤ 5 →
      procFBAux g t k gs = .ok t2 →
      t2.mis = t.mis ∧
      t2.correct.length = 5 ∧
      (∀ j, j < k → t2.correct.getD j none = t.correct.getD j none) ∧
      (∀ j, k ≤ j → j < k + gs.length → t2.correct.getD j none = some (g.getD j '?')) ∧
      (∀ c ∈ gs, c ∉ t2.invalid) ∧
      (∀ c : Char, c ∉ gs → (c ∈ t2.invalid ↔ c ∈ t.invalid)) := by
  intro gs
  induction gs with
  | nil =>
      intro k t t2 _ hlen _ hok
      cases hok
      refine ⟨rfl, hlen, fun j _ => rfl, fun j hj1 hj2 => ?_,
             fun c hc => absurd hc (List.not_mem_nil c), fun c _ => Iff.rfl⟩
      simp only [List.length_nil] at hj2
      omega
  | cons gc gs' ih =>
      intro k t t2 hdrop hlen hbound hok
      have hmem : gc ∈ g := mem_of_drop_cons hdrop.symm
      have halpha : gc.isAlpha = true := ha gc hmem
      have hget : g.get? k = some gc := by
        rw [List.get?_eq_getElem?]
        exact drop_cons_getElem? hdrop.symm
      have hstep : stepFB g t k gc
          = .ok { t with correct := t.correct.set k (some gc),
                         invalid := t.invalid.erase gc } := by
        unfold stepFB
        rw [if_pos halpha, hget]
      unfold procFBAux at hok
      rw [hstep] at hok
      have hk5 : k < 5 := by
        simp only [List.length_cons] at hbound
        omega
      have hdrop2 : gs' = g.drop (k + 1) := (drop_cons_drop hdrop.symm).symm
      have hlen1 : (t.correct.set k (some gc)).length = 5 := by
        rw [List.length_set]
        exact hlen
      have hbound2 : k + 1 + gs'.length ≤ 5 := by
        simp only [List.length_cons] at hbound
        omega
      obtain ⟨hmis, hlen2, hlow, hmid, hin, hiff⟩ :=
        ih (k + 1) _ t2 hdrop2 hlen1 hbound2 hok
      refine ⟨hmis, hlen2, ?_, ?_, ?_, ?_⟩
      · intro j hj
        rw [hlow j (by omega)]
        exact getD_set_ne _ _ _ _ _ (by omega)
      · intro j hj1 hj2
        rcases Nat.eq_or_lt_of_le hj1 with hjk | hjk
        · rw [← hjk]
          rw [hlow k (by omega), getD_set_eq _ _ _ _ (by omega)]
          rw [drop_cons_getD '?' hdrop.symm]
        · apply hmid j (by omega)
          simp only [List.length_cons] at hj2 ⊢
          omega
      · intro c hc
        rcases List.mem_cons.mp hc with hcg | hcr
        · subst hcg
          by_cases hgs : c ∈ gs'
          · exact hin c hgs
          · intro hcontra
            have := (hiff c hgs).mp hcontra
            exact absurd this (Finset.not_mem_erase c t.invalid)
        · exact hin c hcr
      · intro c hc
        have hc1 : c ≠ gc := fun he => hc (he ▸ List.mem_cons_self gc gs')
        have hc2 : c ∉ gs' := fun hm => hc (List.mem_cons_of_mem gc hm)
        rw [hiff c hc2]
        simp only [Finset.mem_erase]
        exact ⟨fun h => h.2, fun h => ⟨hc1, h⟩⟩

/-- C7, amended: after feedback marking all five positions exact for the
previous guess, every word in the filtered candidate list equals that guess,
and the list is exactly the singleton of the guess when the guess is a word
of the (duplicate-free) dictionary that also satisfies the previously
accumulated misplaced-letter constraints.  In particular, when the previous
guess is a synthetic probe absent from the dictionary the filtered list is
empty rather than the claimed singleton. -/
theorem C7_all_exact_collapse (ws : List Word) (t t2 : Tracker) (g : Word)
    (h5 : g.length = 5) (ha : ∀ c ∈ g, c.isAlpha = true)
    (hw : ∀ w ∈ ws, w.length = 5) (hcp : t.correct.length = 5)
    (hok : procFB g t g = .ok t2) :
    (∀ w ∈ filterWords ws t2, w = g) ∧
    (ws.Nodup → g ∈ ws →
      (∀ l ∈ misKeys t.mis, l ∈ g) →
      (∀ x ∈ t.mis, g.getD x.2 '?' ≠ x.1) →
      filterWords ws t2 = [g]) := by
  obtain ⟨hmis, _, _, hmid, hin, _⟩ :=
    procFB_allExact_aux g ha g 0 t t2 (List.drop_zero g).symm hcp (by omega) hok
  have hcp2 : ∀ j, j < 5 → t2.correct.getD j none = some (g.getD j '?') := by
    intro j hj
    exact hmid j (by omega) (by omega)
  have hpart1 : ∀ w ∈ filterWords ws t2, w = g := by
    intro w hwmem
    rcases List.mem_filter.mp hwmem with ⟨hwin, hq⟩
    rcases (wordQualifies_eq_true_iff t2 w).mp hq with ⟨_, hb, _, _⟩
    apply eq_of_getD_eq (hw w hwin) h5
    intro i hi
    exact hb i hi _ (hcp2 i hi)
  refine ⟨hpart1, ?_⟩
  intro hnd hgin hkeys hpos
  apply filter_eq_singleton hnd hgin
  intro w hwin
  constructor
  · intro hq
    exact hpart1 w (List.mem_filter.mpr ⟨hwin, hq⟩)
  · intro he
    subst he
    apply (wordQualifies_eq_true_iff t2 w).mpr
    refine ⟨?_, ?_, ?_, ?_⟩
    · intro l hl hlw
      exact hin l hlw hl
    · intro i hi c hc
      rw [hcp2 i hi] at hc
      exact (Option.some.injEq _ _ ▸ hc).symm ▸ rfl
    · intro i hi hcontra
      rw [hmis] at hcontra
      exact hpos _ hcontra rfl
    · intro l hl
      rw [hmis] at hl
      exact hkeys l hl

/-- Witness for C7 at a concrete all-exact update on a one-word
dictionary. -/
theorem C7_all_exact_collapse_witness :
    filterWords [("abcde".toList)]
        (Tracker.mk ∅ (("abcde".toList).map some) ∅) = [("abcde".toList)] :=
  (C7_all_exact_collapse [("abcde".toList)] initTracker
      (Tracker.mk ∅ (("abcde".toList).map some) ∅) ("abcde".toList)
      (by decide) (by decide) (by decide) (by decide) rfl).2
    (by decide) (by decide) (by decide) (by decide)

/-- C7, counterexample: with a synthetic probe fghij absent from the
dictionary abcde and all-exact feedback for it, the filtered candidate list
is empty, not the claimed singleton of the previous guess. -/
theorem C7_counterexample :
    (procFB ("fghij".toList) initTracker ("fghij".toList)).map
        (fun t => filterWords [("abcde".toList)] t) = Except.ok [] ∧
      ([] : List Word) ≠ [("fghij".toList)] := by
  constructor
  · decide
  · decide

/- ------------------------------------------------------------------ -/
/- C4: candidate sets shrink under feedback from a real target. -/

theorem dash_not_alpha : ('-').isAlpha = false := by decide

theorem plus_not_alpha : ('+').isAlpha = false := by decide

theorem stepFB_exact {g : Word} {t : Tracker} {k : Nat} {gc : Char}
    (hget : g.get? k = some gc) (halpha : gc.isAlpha = true) :
    stepFB g t k gc
      = .ok { t with correct := t.correct.set k (some gc),
                     invalid := t.invalid.erase gc } := by
  unfold stepFB
  rw [if_pos halpha, hget]

theorem stepFB_dash {g : Word} {t : Tracker} {k : Nat} {gc : Char}
    (hget : g.get? k = some gc) :
    stepFB g t k '-' = .ok { t with mis := insert (gc, k) t.mis } := by
  unfold stepFB
  rw [if_neg (by simp [dash_not_alpha]), if_pos rfl, hget]

theorem stepFB_plus_add {g : Word} {t : Tracker} {k : Nat} {gc : Char}
    (hget : g.get? k = some gc)
    (hguard : gc ∉ misKeys t.mis ∧ some gc ∉ t.correct) :
    stepFB g t k '+' = .ok { t with invalid := insert gc t.invalid } := by
  unfold stepFB
  rw [if_neg (by simp [plus_not_alpha]), if_neg (by decide), if_pos rfl]
  simp only [hget]
  rw [if_pos hguard]

theorem stepFB_plus_skip {g : Word} {t : Tracker} {k : Nat} {gc : Char}
    (hget : g.get? k = some gc)
    (hguard : ¬ (gc ∉ misKeys t.mis ∧ some gc ∉ t.correct)) :
    stepFB g t k '+' = .ok t := by
  unfold stepFB
  rw [if_neg (by simp [plus_not_alpha]), if_neg (by decide), if_pos rfl]
  simp only [hget]
  rw [if_neg hguard]

theorem wfb2_cons (gc tc : Char) (ps : List (Char × Char)) (rem : List Char) :
    wfb2 ((gc, tc) :: ps) rem =
      if gc = tc then gc :: wfb2 ps rem
      else if gc ∈ rem then '-' :: wfb2 ps (rem.erase gc)
      else '+' :: wfb2 ps rem := rfl

theorem mem_set_correct {cp : List (Option Char)} {k : Nat} {L gc : Char}
    (hk : k < cp.length) (hmem : some L ∈ cp)
    (hslot : cp.getD k none = none ∨ cp.getD k none = some gc) :
    some L ∈ cp.set k (some gc) := by
  by_cases hLg : L = gc
  · subst hLg
    exact List.mem_set cp k hk (some L)
  · have hne : cp.getD k none ≠ some L := by
      rcases hslot with h | h <;> rw [h]
      · simp
      · simp only [ne_eq, Option.some.injEq]
        exact fun he => hLg he.symm
    rcases mem_set_of_mem hmem hne (some gc) with h | h
    · exact h
    · exact absurd (Option.some.inj h) hLg

theorem mem_zip_of_getElem {g tg : Word} {j : Nat} (hj1 : j < g.length) (hj2 : j < tg.length) :
    (g.getD j '?', tg.getD j '?') ∈ g.zip tg := by
  have h1 : g[j]? = some (g.getD j '?') := by
    rw [List.getD_eq_getElem?_getD, List.getElem?_eq_getElem hj1]
    rfl
  have h2 : tg[j]? = some (tg.getD j '?') := by
    rw [List.getD_eq_getElem?_getD, List.getElem?_eq_getElem hj2]
    rfl
  exact List.mem_iff_getElem?.mpr ⟨j, List.getElem?_zip_eq_some.mpr ⟨h1, h2⟩⟩

theorem wfbProc_key (g tg : Word) (ha : ∀ c ∈ g, c.isAlpha = true) :
    ∀ (gs ts : List Char) (k : Nat) (rem : List Char) (t t2 : Tracker),
      gs = g.drop k → ts = tg.drop k → k + (gs.zip ts).length ≤ 5 →
      t.correct.length = 5 →
      (∀ i c, t.correct.getD i none = some c → tg.getD i '?' = c) →
      (∀ L, L ∈ tg → L ∈ t.invalid → (L, L) ∈ gs.zip ts) →
      (∀ L, L ∈ tg →
        (L ∈ rem ∨ some L ∈ t.correct ∨ L ∈ misKeys t.mis ∨ (L, L) ∈ gs.zip ts)) →
      procFBAux g t k (wfb2 (gs.zip ts) rem) = .ok t2 →
      ((∀ c, c ∈ t.invalid → c ∉ tg → c ∈ t2.invalid) ∧
       (∀ i c, t.correct.getD i none = some c → t2.correct.getD i none = some c) ∧
       (∀ x ∈ t.mis, x ∈ t2.mis) ∧
       (∀ i c, t2.correct.getD i none = some c → tg.getD i '?' = c) ∧
       (∀ L, L ∈ tg → L ∉ t2.invalid) ∧
       t2.correct.length = 5) := by
  intro gs
  induction gs with
  | nil =>
      intro ts k rem t t2 _ _ _ hlen hInv2 hpend havail hok
      have hself : procFBAux g t k (wfb2 (List.zip ([] : List Char) ts) rem) = .ok t := rfl
      rw [hself] at hok
      have ht : t2 = t := (Except.ok.inj hok).symm
      subst ht
      refine ⟨fun c hc _ => hc, fun i c hc => hc, fun x hx => hx, hInv2, ?_, hlen⟩
      intro L hL hLinv
      have hp := hpend L hL hLinv
      exact absurd hp (List.not_mem_nil _)
  | cons gc gs' ih =>
      intro ts k rem t t2 hdg hdt hbound hlen hInv2 hpend havail hok
      cases ts with
      | nil =>
          have hself : procFBAux g t k (wfb2 ((gc :: gs').zip ([] : List Char)) rem)
              = .ok t := rfl
          rw [hself] at hok
          have ht : t2 = t := (Except.ok.inj hok).symm
          subst ht
          refine ⟨fun c hc _ => hc, fun i c hc => hc, fun x hx => hx, hInv2, ?_, hlen⟩
          intro L hL hLinv
          have hp := hpend L hL hLinv
          rw [List.zip_nil_right] at hp
          exact absurd hp (List.not_mem_nil _)
      | cons tc ts' =>
          have hgk : g.get? k = some gc := by
            rw [List.get?_eq_getElem?]
            exact drop_cons_getElem? hdg.symm
          have hgcg : gc ∈ g := mem_of_drop_cons hdg.symm
          have htck : tg.getD k '?' = tc := drop_cons_getD '?' hdt.symm
          have htcm : tc ∈ tg := mem_of_drop_cons hdt.symm
          have hdg2 : gs' = g.drop (k + 1) := (drop_cons_drop hdg.symm).symm
          have hdt2 : ts' = tg.drop (k + 1) := (drop_cons_drop hdt.symm).symm
          have hk5 : k < 5 := by
            rw [List.zip_cons_cons, List.length_cons] at hbound
            omega
          have hbound2 : k + 1 + (gs'.zip ts').length ≤ 5 := by
            rw [List.zip_cons_cons, List.length_cons] at hbound
            omega
          rw [List.zip_cons_cons] at hok hpend havail
          rw [wfb2_cons] at hok
          by_cases hexact : gc = tc
          · -- exact-match position
            rw [if_pos hexact] at hok
            unfold procFBAux at hok
            simp only [stepFB_exact hgk (ha gc hgcg)] at hok
            have hlen1 : (t.correct.set k (some gc)).length = 5 := by
              rw [List.length_set]
              exact hlen
            have hInv2a : ∀ i c, (t.correct.set k (some gc)).getD i none = some c →
                tg.getD i '?' = c := by
              intro i c hc
              by_cases hik : i = k
              · rw [hik] at hc ⊢
                rw [getD_set_eq _ _ _ _ (by omega)] at hc
                have hcgc : gc = c := Option.some.inj hc
                rw [htck, ← hcgc, hexact]
              · rw [getD_set_ne _ _ _ _ _ (fun he => hik he.symm)] at hc
                exact hInv2 i c hc
            have hpend1 : ∀ L, L ∈ tg → L ∈ t.invalid.erase gc → (L, L) ∈ gs'.zip ts' := by
              intro L hL hLe
              rcases Finset.mem_erase.mp hLe with ⟨hne, hLi⟩
              rcases List.mem_cons.mp (hpend L hL hLi) with hh | ht'
              · injection hh with h1 h2
                exact absurd h1 hne
              · exact ht'
            have havail1 : ∀ L, L ∈ tg →
                (L ∈ rem ∨ some L ∈ t.correct.set k (some gc) ∨ L ∈ misKeys t.mis ∨
                 (L, L) ∈ gs'.zip ts') := by
              intro L hL
              rcases havail L hL with h | h | h | h
              · exact Or.inl h
              · refine Or.inr (Or.inl ?_)
                apply mem_set_correct (by omega) h
                cases hslot : t.correct.getD k none with
                | none => exact Or.inl rfl
                | some c =>
                    right
                    have h1 : tg.getD k '?' = c := hInv2 k c hslot
                    rw [htck] at h1
                    rw [← h1, ← hexact]
              · exact Or.inr (Or.inr (Or.inl h))
              · rcases List.mem_cons.mp h with hh | ht'
                · injection hh with h1 h2
                  refine Or.inr (Or.inl ?_)
                  rw [h1]
                  exact List.mem_set t.correct k (by omega) (some gc)
                · exact Or.inr (Or.inr (Or.inr ht'))
            obtain ⟨hA, hB, hC, hD, hE, hF⟩ :=
              ih ts' (k + 1) rem _ t2 hdg2 hdt2 hbound2 hlen1 hInv2a hpend1 havail1 hok
            refine ⟨?_, ?_, hC, hD, hE, hF⟩
            · intro c hc hctg
              apply hA c ?_ hctg
              exact Finset.mem_erase.mpr
                ⟨fun he => hctg (by rw [he, hexact]; exact htcm), hc⟩
            · intro i c hc
              apply hB i c
              by_cases hik : i = k
              · rw [hik] at hc ⊢
                rw [getD_set_eq _ _ _ _ (by omega)]
                have h1 : tg.getD k '?' = c := hInv2 k c hc
                rw [htck] at h1
                rw [hexact, h1]
              · rw [getD_set_ne _ _ _ _ _ (fun he => hik he.symm)]
                exact hc
          · rw [if_neg hexact] at hok
            by_cases hrem : gc ∈ rem
            · -- present-elsewhere position
              rw [if_pos hrem] at hok
              unfold procFBAux at hok
              simp only [stepFB_dash hgk] at hok
              have hpend1 : ∀ L, L ∈ tg → L ∈ t.invalid → (L, L) ∈ gs'.zip ts' := by
                intro L hL hLi
                rcases List.mem_cons.mp (hpend L hL hLi) with hh | ht'
                · injection hh with h1 h2
                  exact absurd (h1.symm.trans h2) hexact
                · exact ht'
              have havail1 : ∀ L, L ∈ tg →
                  (L ∈ rem.erase gc ∨ some L ∈ t.correct ∨
                   L ∈ misKeys (insert (gc, k) t.mis) ∨ (L, L) ∈ gs'.zip ts') := by
                intro L hL
                rcases havail L hL with h | h | h | h
                · by_cases hLgc : L = gc
                  · refine Or.inr (Or.inr (Or.inl ?_))
                    rw [hLgc]
                    exact Finset.mem_image.mpr ⟨(gc, k), Finset.mem_insert_self _ _, rfl⟩
                  · exact Or.inl ((List.mem_erase_of_ne hLgc).mpr h)
                · exact Or.inr (Or.inl h)
                · refine Or.inr (Or.inr (Or.inl ?_))
                  rcases Finset.mem_image.mp h with ⟨x, hx, hfx⟩
                  exact Finset.mem_image.mpr ⟨x, Finset.mem_insert_of_mem hx, hfx⟩
                · rcases List.mem_cons.mp h with hh | ht'
                  · injection hh with h1 h2
                    exact absurd (h1.symm.trans h2) hexact
                  · exact Or.inr (Or.inr (Or.inr ht'))
              obtain ⟨hA, hB, hC, hD, hE, hF⟩ :=
                ih ts' (k + 1) (rem.erase gc) { t with mis := insert (gc, k) t.mis } t2
                  hdg2 hdt2 hbound2 hlen hInv2 hpend1 havail1 hok
              exact ⟨hA, hB, fun x hx => hC x (Finset.mem_insert_of_mem hx), hD, hE, hF⟩
            · -- absent position
              rw [if_neg hrem] at hok
              unfold procFBAux at hok
              have hshift : ∀ L, L ∈ tg → (L, L) ∈ (gc, tc) :: gs'.zip ts' →
                  (L, L) ∈ gs'.zip ts' := by
                intro L _ h
                rcases List.mem_cons.mp h with hh | ht'
                · injection hh with h1 h2
                  exact absurd (h1.symm.trans h2) hexact
                · exact ht'
              by_cases hguard : gc ∉ misKeys t.mis ∧ some gc ∉ t.correct
              · simp only [stepFB_plus_add hgk hguard] at hok
                have hpend1 : ∀ L, L ∈ tg → L ∈ insert gc t.invalid →
                    (L, L) ∈ gs'.zip ts' := by
                  intro L hL hLi
                  rcases Finset.mem_insert.mp hLi with hLgc | hLi2
                  · rcases havail L hL with h | h | h | h
                    · exact absurd (hLgc ▸ h) hrem
                    · exact absurd (hLgc ▸ h) hguard.2
                    · exact absurd (hLgc ▸ h) hguard.1
                    · exact hshift L hL h
                  · exact hshift L hL (hpend L hL hLi2)
                have havail1 : ∀ L, L ∈ tg →
                    (L ∈ rem ∨ some L ∈ t.correct ∨ L ∈ misKeys t.mis ∨
                     (L, L) ∈ gs'.zip ts') := by
                  intro L hL
                  rcases havail L hL with h | h | h | h
                  · exact Or.inl h
                  · exact Or.inr (Or.inl h)
                  · exact Or.inr (Or.inr (Or.inl h))
                  · exact Or.inr (Or.inr (Or.inr (hshift L hL h)))
                obtain ⟨hA, hB, hC, hD, hE, hF⟩ :=
                  ih ts' (k + 1) rem { t with invalid := insert gc t.invalid } t2
                    hdg2 hdt2 hbound2 hlen hInv2 hpend1 havail1 hok
                exact ⟨fun c hc hctg => hA c (Finset.mem_insert_of_mem hc) hctg,
                       hB, hC, hD, hE, hF⟩
              · simp only [stepFB_plus_skip hgk hguard] at hok
                have hpend1 : ∀ L, L ∈ tg → L ∈ t.invalid → (L, L) ∈ gs'.zip ts' :=
                  fun L hL hLi => hshift L hL (hpend L hL hLi)
                have havail1 : ∀ L, L ∈ tg →
                    (L ∈ rem ∨ some L ∈ t.correct ∨ L ∈ misKeys t.mis ∨
                     (L, L) ∈ gs'.zip ts') := by
                  intro L hL
                  rcases havail L hL with h | h | h | h
                  · exact Or.inl h
                  · exact Or.inr (Or.inl h)
                  · exact Or.inr (Or.inr (Or.inl h))
                  · exact Or.inr (Or.inr (Or.inr (hshift L hL h)))
                exact ih ts' (k + 1) rem t t2 hdg2 hdt2 hbound2 hlen hInv2
                  hpend1 havail1 hok

theorem filterWords_antitone {ws : List Word} {t t2 : Tracker}
    (hi : ∀ c ∈ t.invalid, c ∈ t2.invalid)
    (hc : ∀ i c, t.correct.getD i none = some c → t2.correct.getD i none = some c)
    (hm : ∀ x ∈ t.mis, x ∈ t2.mis) :
    ∀ w ∈ filterWords ws t2, w ∈ filterWords ws t := by
  intro w hw
  rcases List.mem_filter.mp hw with ⟨hin, hq⟩
  refine List.mem_filter.mpr ⟨hin, ?_⟩
  rcases (wordQualifies_eq_true_iff t2 w).mp hq with ⟨h1, h2, h3, h4⟩
  apply (wordQualifies_eq_true_iff t w).mpr
  refine ⟨?_, ?_, ?_, ?_⟩
  · intro l hl
    exact h1 l (hi l hl)
  · intro i hi5 c hcor
    exact h2 i hi5 c (hc i c hcor)
  · intro i hiw hmem
    exact h3 i hiw (hm _ hmem)
  · intro l hl
    apply h4
    rcases Finset.mem_image.mp hl with ⟨x, hx, hfx⟩
    exact Finset.mem_image.mpr ⟨x, hm x hx, hfx⟩

theorem consStep_subset (ws : List Word) (tg g : Word) (t t2 : Tracker)
    (htg : tg.length = 5) (hg : g.length = 5)
    (ha : ∀ c ∈ g, c.isAlpha = true)
    (hInv1 : ∀ c ∈ tg, c ∉ t.invalid)
    (hInv2 : ∀ i c, t.correct.getD i none = some c → tg.getD i '?' = c)
    (hlen : t.correct.length = 5)
    (hok : procFB g t (wordleFb g tg) = .ok t2) :
    (∀ w ∈ filterWords ws t2, w ∈ filterWords ws t) ∧
    (∀ c ∈ tg, c ∉ t2.invalid) ∧
    (∀ i c, t2.correct.getD i none = some c → tg.getD i '?' = c) ∧
    t2.correct.length = 5 := by
  have hbound : 0 + (g.zip tg).length ≤ 5 := by
    rw [List.length_zip, hg, htg]
    omega
  have hpend : ∀ L, L ∈ tg → L ∈ t.invalid → (L, L) ∈ g.zip tg :=
    fun L hL hLi => absurd hLi (hInv1 L hL)
  have havail : ∀ L, L ∈ tg →
      (L ∈ initialRem g tg ∨ some L ∈ t.correct ∨ L ∈ misKeys t.mis ∨
       (L, L) ∈ g.zip tg) := by
    intro L hL
    rcases List.mem_iff_getElem.mp hL with ⟨j, hj, hLj⟩
    have hj5 : j < g.length := by omega
    have hLD : tg.getD j '?' = L := by
      rw [List.getD_eq_getElem?_getD, List.getElem?_eq_getElem hj, hLj]
      rfl
    have hpair : (g.getD j '?', L) ∈ g.zip tg := hLD ▸ mem_zip_of_getElem hj5 hj
    by_cases hgL : g.getD j '?' = L
    · refine Or.inr (Or.inr (Or.inr ?_))
      rw [← hgL]
      exact hgL ▸ hpair
    · refine Or.inl ?_
      apply List.mem_filterMap.mpr
      refine ⟨(g.getD j '?', L), hpair, ?_⟩
      rw [if_neg hgL]
  have hok2 : procFBAux g t 0 (wfb2 (g.zip tg) (initialRem g tg)) = .ok t2 := hok
  obtain ⟨hA, hB, hC, hD, hE, hF⟩ :=
    wfbProc_key g tg ha g tg 0 (initialRem g tg) t t2
      (List.drop_zero g).symm (List.drop_zero tg).symm hbound hlen hInv2 hpend havail hok2
  refine ⟨?_, hE, hD, hF⟩
  apply filterWords_antitone ?_ hB hC
  intro c hcin
  apply hA c hcin
  intro hctg
  exact hInv1 c hctg hcin

theorem consReach_inv (tg : Word) (htg : tg.length = 5) {t : Tracker}
    (hr : ConsReach tg t) :
    (∀ c ∈ tg, c ∉ t.invalid) ∧
    (∀ i c, t.correct.getD i none = some c → tg.getD i '?' = c) ∧
    t.correct.length = 5 := by
  induction hr with
  | init =>
      refine ⟨fun c _ => Finset.not_mem_empty c, ?_, rfl⟩
      intro i c hc
      have hnone : (List.replicate 5 (none : Option Char)).getD i none = none := by
        rw [List.getD_eq_getElem?_getD, List.getElem?_replicate]
        split_ifs <;> rfl
      have hc2 : (List.replicate 5 (none : Option Char)).getD i none = some c := hc
      rw [hnone] at hc2
      cases hc2
  | step t t2 g hcr hg ha hok ih =>
      obtain ⟨h1, h2, h3⟩ := ih
      obtain ⟨_, hE, hD, hF⟩ := consStep_subset [] tg g t t2 htg hg ha h1 h2 h3 hok
      exact ⟨hE, hD, hF⟩

/-- C4: for every dictionary, hidden 5-letter target and reachable tracker
state of a run that has only ever received genuine Wordle feedback for that
target, one more turn of genuine feedback for any alphabetic 5-letter guess
shrinks the filtered candidate list: every word surviving the new state
already survived the old one. -/
theorem C4_candidates_monotone (ws : List Word) (tg : Word) (t t2 : Tracker) (g : Word)
    (htg : tg.length = 5) (hg : g.length = 5) (ha : ∀ c ∈ g, c.isAlpha = true)
    (hr : ConsReach tg t) (hok : procFB g t (wordleFb g tg) = .ok t2) :
    ∀ w ∈ filterWords ws t2, w ∈ filterWords ws t := by
  obtain ⟨h1, h2, h3⟩ := consReach_inv tg htg hr
  exact (consStep_subset ws tg g t t2 htg hg ha h1 h2 h3 hok).1

/-- Witness for C4 at a concrete one-word dictionary with the target itself
guessed. -/
theorem C4_candidates_monotone_witness :
    ("abcde".toList) ∈ filterWords [("abcde".toList)] initTracker :=
  C4_candidates_monotone [("abcde".toList)] ("abcde".toList) initTracker
    (Tracker.mk ∅ (("abcde".toList).map some) ∅) ("abcde".toList)
    (by decide) (by decide) (by decide) ConsReach.init rfl
    ("abcde".toList) (by decide)

/- ------------------------------------------------------------------ -/
/- C6: length of the frequency-analysis result. -/

theorem bump_keys (l : Char) (al : List (Char × Nat)) :
    (bump l al).map Prod.fst =
      if l ∈ al.map Prod.fst then al.map Prod.fst else al.map Prod.fst ++ [l] := by
  induction al with
  | nil => simp [bump]
  | cons p rest ih =>
      obtain ⟨c, n⟩ := p
      by_cases hcl : c = l
      · simp only [bump, if_pos hcl, List.map_cons]
        rw [if_pos (List.mem_cons.mpr (Or.inl hcl.symm))]
      · simp only [bump, if_neg hcl, List.map_cons]
        rw [ih]
        by_cases hmem : l ∈ rest.map Prod.fst
        · rw [if_pos hmem, if_pos (List.mem_cons_of_mem c hmem)]
        · have hnotin : l ∉ c :: rest.map Prod.fst := by
            intro hmem2
            rcases List.mem_cons.mp hmem2 with he | hm
            · exact hcl he.symm
            · exact hmem hm
          rw [if_neg hmem, if_neg hnotin]
          rfl

theorem tallyGo_keys (cs : List Char) :
    ∀ acc : List (Char × Nat), (acc.map Prod.fst).Nodup →
      ((tallyGo cs acc).map Prod.fst).Nodup ∧
      (∀ x : Char, x ∈ (tallyGo cs acc).map Prod.fst ↔ x ∈ acc.map Prod.fst ∨ x ∈ cs) := by
  induction cs with
  | nil =>
      intro acc hnd
      refine ⟨hnd, fun x => ?_⟩
      simp [tallyGo]
  | cons c cs2 ih =>
      intro acc hnd
      have hbk := bump_keys c acc
      have hnd2 : ((bump c acc).map Prod.fst).Nodup := by
        rw [hbk]
        split_ifs with hmem
        · exact hnd
        · rw [List.nodup_append]
          refine ⟨hnd, List.nodup_singleton c, ?_⟩
          intro a ha hb
          rw [List.mem_singleton] at hb
          exact hmem (hb ▸ ha)
      have hmemb : ∀ x : Char,
          x ∈ (bump c acc).map Prod.fst ↔ x ∈ acc.map Prod.fst ∨ x = c := by
        intro x
        rw [hbk]
        split_ifs with hmem
        · constructor
          · exact fun h => Or.inl h
          · rintro (h | h)
            · exact h
            · rw [h]
              exact hmem
        · rw [List.mem_append, List.mem_singleton]
      obtain ⟨h1, h2⟩ := ih (bump c acc) hnd2
      refine ⟨h1, fun x => ?_⟩
      have hstep : tallyGo (c :: cs2) acc = tallyGo cs2 (bump c acc) := rfl
      rw [hstep, h2 x, hmemb x, List.mem_cons]
      tauto

theorem tallyList_keys (cs : List Char) :
    ((tallyList cs).map Prod.fst).Nodup ∧
    (∀ x : Char, x ∈ (tallyList cs).map Prod.fst ↔ x ∈ cs) := by
  obtain ⟨h1, h2⟩ := tallyGo_keys cs [] (by simp)
  refine ⟨h1, fun x => ?_⟩
  have := h2 x
  simpa using this

theorem tallyList_keys_length (cs : List Char) :
    ((tallyList cs).map Prod.fst).length = cs.toFinset.card := by
  obtain ⟨h1, h2⟩ := tallyList_keys cs
  rw [← List.toFinset_card_of_nodup h1]
  congr 1
  apply Finset.ext
  intro a
  rw [List.mem_toFinset, List.mem_toFinset, h2 a]

theorem insertDescBy_perm (key : Char → Nat) (c : Char) (l : List Char) :
    (insertDescBy key c l).Perm (c :: l) := by
  induction l with
  | nil => exact List.Perm.refl _
  | cons d ds ih =>
      unfold insertDescBy
      split_ifs with h
      · exact List.Perm.refl _
      · exact List.Perm.trans (List.Perm.cons d ih) (List.Perm.swap c d ds)

theorem sortDescBy_perm (key : Char → Nat) (l : List Char) :
    (sortDescBy key l).Perm l := by
  induction l with
  | nil => exact List.Perm.refl _
  | cons c cs ih =>
      unfold sortDescBy
      exact List.Perm.trans (insertDescBy_perm key c (sortDescBy key cs))
        (List.Perm.cons c ih)

theorem filterMap_set_some {cp : List (Option Char)} :
    ∀ {i : Nat}, i < cp.length → cp.getD i none = none →
      ∀ x : Char,
        ((cp.set i (some x)).filterMap id).length = (cp.filterMap id).length + 1 := by
  induction cp with
  | nil =>
      intro i hi
      simp at hi
  | cons o rest ih =>
      intro i hi hd x
      cases i with
      | zero =>
          have ho : o = none := hd
          rw [ho]
          simp [List.filterMap_cons]
      | succ i2 =>
          have hd2 : rest.getD i2 none = none := hd
          have hi2 : i2 < rest.length := by
            simp only [List.length_cons] at hi
            omega
          cases o with
          | none =>
              simp only [List.set, List.filterMap_cons, id]
              exact ih hi2 hd2 x
          | some a =>
              simp only [List.set, List.filterMap_cons, id, List.length_cons]
              rw [ih hi2 hd2 x]

theorem filterMap_lt_of_none {cp : List (Option Char)} :
    ∀ {i : Nat}, i < cp.length → cp.getD i none = none →
      (cp.filterMap id).length < cp.length := by
  induction cp with
  | nil =>
      intro i hi
      simp at hi
  | cons o rest ih =>
      intro i hi hd
      cases i with
      | zero =>
          have ho : o = none := hd
          rw [ho]
          simp only [List.filterMap_cons, id, List.length_cons]
          exact Nat.lt_succ_of_le (List.length_filterMap_le id rest)
      | succ i2 =>
          have hd2 : rest.getD i2 none = none := hd
          have hi2 : i2 < rest.length := by
            simp only [List.length_cons] at hi
            omega
          cases o with
          | none =>
              simp only [List.filterMap_cons, id, List.length_cons]
              exact Nat.lt_succ_of_le (List.length_filterMap_le id rest)
          | some a =>
              simp only [List.filterMap_cons, id, List.length_cons]
              have := ih hi2 hd2
              omega

theorem filterMap_length_of_all_some {cp : List (Option Char)} :
    (∀ i, i < cp.length → cp.getD i none ≠ none) →
    (cp.filterMap id).length = cp.length := by
  induction cp with
  | nil => intro _; rfl
  | cons o rest ih =>
      intro h
      have h0 : o ≠ none := h 0 (by simp)
      cases o with
      | none => exact absurd rfl h0
      | some a =>
          simp only [List.filterMap_cons, id, List.length_cons]
          rw [ih ?_]
          intro i hi
          exact h (i + 1) (by simp only [List.length_cons]; omega)

theorem bestPosGo_post (posT : List (List (Char × Nat))) (chosen : List (Option Char))
    (l : Char) :
    ∀ (li : List Nat) (acc : Option Nat × Int),
      (∀ pos ∈ li, pos < 5) →
      (∀ p, acc.1 = some p → p < 5 ∧ chosen.getD p none = none) →
      ∀ p, (bestPosGo posT chosen l li acc).1 = some p →
        p < 5 ∧ chosen.getD p none = none := by
  intro li
  induction li with
  | nil =>
      intro acc _ hacc p hp
      exact hacc p hp
  | cons pos rest ih =>
      intro acc hlt hacc p hp
      unfold bestPosGo at hp
      refine ih _ (fun q hq => hlt q (List.mem_cons_of_mem pos hq)) ?_ p hp
      intro q hq
      split_ifs at hq with h1 h2
      · have hpq : pos = q := Option.some.inj hq
        refine ⟨?_, ?_⟩
        · rw [← hpq]
          exact hlt pos (List.mem_cons_self pos rest)
        · rw [← hpq]
          exact h1.2
      · exact hacc q hq
      · exact hacc q hq

theorem bestPosAux_post {posT : List (List (Char × Nat))} {chosen : List (Option Char)}
    {l : Char} {p : Nat} (h : bestPosAux posT chosen l = some p) :
    p < 5 ∧ chosen.getD p none = none := by
  apply bestPosGo_post posT chosen l (List.range 5) (none, -1)
      (fun pos hpos => List.mem_range.mp hpos) ?_ p h
  intro q hq
  cases hq

theorem phase1Aux_inv (posT : List (List (Char × Nat))) (top5 : List Char) :
    ∀ (ls : List Char) (st : List (Option Char) × List Char),
      st.1.length = 5 →
      (st.1.filterMap id).length = st.2.length →
      st.2.Nodup →
      (∀ c ∈ st.2, c ∈ top5) →
      (∀ c ∈ st.2, c ∉ ls) →
      ls.Nodup →
      (∀ c ∈ ls, c ∈ top5) →
      ((phase1Aux posT ls st).1.length = 5 ∧
       ((phase1Aux posT ls st).1.filterMap id).length = (phase1Aux posT ls st).2.length ∧
       (phase1Aux posT ls st).2.Nodup ∧
       (∀ c ∈ (phase1Aux posT ls st).2, c ∈ top5)) := by
  intro ls
  induction ls with
  | nil =>
      intro st h1 h2 h3 h4 _ _ _
      exact ⟨h1, h2, h3, h4⟩
  | cons l ls2 ih =>
      intro st h1 h2 h3 h4 hdisj hnd hsub
      have hstep : phase1Aux posT (l :: ls2) st
          = phase1Aux posT ls2
              (match bestPosAux posT st.1 l with
               | some p => (st.1.set p (some l), st.2 ++ [l])
               | none => st) := rfl
      rw [hstep]
      cases hbp : bestPosAux posT st.1 l with
      | none =>
          simp only [hbp]
          exact ih st h1 h2 h3 h4
            (fun c hc => fun hmem => hdisj c hc (List.mem_cons_of_mem l hmem))
            (List.nodup_cons.mp hnd).2
            (fun c hc => hsub c (List.mem_cons_of_mem l hc))
      | some p =>
          simp only [hbp]
          obtain ⟨hp5, hpnone⟩ := bestPosAux_post hbp
          have hlnot : l ∉ st.2 := by
            intro hmem
            exact hdisj l hmem (List.mem_cons_self l ls2)
          apply ih (st.1.set p (some l), st.2 ++ [l])
          · rw [List.length_set]
            exact h1
          · rw [filterMap_set_some (by omega) hpnone l, h2, List.length_append]
            rfl
          · rw [List.nodup_append]
            refine ⟨h3, List.nodup_singleton l, ?_⟩
            intro a ha hb
            rw [List.mem_singleton] at hb
            exact hlnot (hb ▸ ha)
          · intro c hc
            rcases List.mem_append.mp hc with h | h
            · exact h4 c h
            · rw [List.mem_singleton] at h
              rw [h]
              exact hsub l (List.mem_cons_self l ls2)
          · intro c hc
            rcases List.mem_append.mp hc with h | h
            · exact fun hmem => hdisj c h (List.mem_cons_of_mem l hmem)
            · rw [List.mem_singleton] at h
              rw [h]
              exact (List.nodup_cons.mp hnd).1
          · exact (List.nodup_cons.mp hnd).2
          · exact fun c hc => hsub c (List.mem_cons_of_mem l hc)

theorem phase2Aux_keeps (top5 : List Char) :
    ∀ (li : List Nat) (st : List (Option Char) × List Char) (j : Nat),
      st.1.getD j none ≠ none →
      (phase2Aux top5 li st).1.getD j none ≠ none := by
  intro li
  induction li with
  | nil =>
      intro st j h
      exact h
  | cons i rest ih =>
      intro st j h
      have hstep : phase2Aux top5 (i :: rest) st
          = phase2Aux top5 rest
              (match st.1.getD i none with
               | some _ => st
               | none =>
                 match top5.find? (fun l => decide (l ∉ st.2)) with
                 | some l => (st.1.set i (some l), st.2 ++ [l])
                 | none => st) := rfl
      rw [hstep]
      cases hd : st.1.getD i none with
      | some a =>
          simp only [hd]
          exact ih st j h
      | none =>
          simp only [hd]
          cases hf : top5.find? (fun l => decide (l ∉ st.2)) with
          | none =>
              simp only [hf]
              exact ih st j h
          | some l =>
              simp only [hf]
              apply ih
              by_cases hij : j = i
              · rw [hij] at h
                exact absurd hd h
              · rw [getD_set_ne _ _ _ _ _ (fun he => hij he.symm)]
                exact h

theorem phase2Aux_inv (top5 : List Char) (h5 : top5.length = 5) (hnd5 : top5.Nodup) :
    ∀ (li : List Nat) (st : List (Option Char) × List Char),
      (∀ i ∈ li, i < 5) →
      st.1.length = 5 →
      (st.1.filterMap id).length = st.2.length →
      st.2.Nodup →
      (∀ c ∈ st.2, c ∈ top5) →
      ((phase2Aux top5 li st).1.length = 5 ∧
       (∀ i ∈ li, (phase2Aux top5 li st).1.getD i none ≠ none)) := by
  intro li
  induction li with
  | nil =>
      intro st _ hlen _ _ _
      exact ⟨hlen, fun i hi => absurd hi (List.not_mem_nil i)⟩
  | cons i rest ih =>
      intro st hlt hlen hcount hnd hsub
      have hstep : phase2Aux top5 (i :: rest) st
          = phase2Aux top5 rest
              (match st.1.getD i none with
               | some _ => st
               | none =>
                 match top5.find? (fun l => decide (l ∉ st.2)) with
                 | some l => (st.1.set i (some l), st.2 ++ [l])
                 | none => st) := rfl
      rw [hstep]
      cases hd : st.1.getD i none with
      | some a =>
          simp only [hd]
          obtain ⟨h1, h2⟩ :=
            ih st (fun q hq => hlt q (List.mem_cons_of_mem i hq)) hlen hcount hnd hsub
          refine ⟨h1, ?_⟩
          intro q hq
          rcases List.mem_cons.mp hq with he | hq2
          · rw [he]
            apply phase2Aux_keeps
            rw [hd]
            simp
          · exact h2 q hq2
      | none =>
          simp only [hd]
          have hi5 : i < 5 := hlt i (List.mem_cons_self i rest)
          have hlt4 : st.2.length ≤ 4 := by
            have hstrict := @filterMap_lt_of_none st.1 i (by omega) hd
            omega
          have hex : ∃ l ∈ top5, l ∉ st.2 := by
            by_contra hall
            push_neg at hall
            have hsubF : top5.toFinset ⊆ st.2.toFinset := by
              intro a haF
              rw [List.mem_toFinset] at haF ⊢
              exact hall a haF
            have hc1 : top5.toFinset.card = 5 := by
              rw [List.toFinset_card_of_nodup hnd5, h5]
            have hc2 : st.2.toFinset.card ≤ 4 := by
              rw [List.toFinset_card_of_nodup hnd]
              exact hlt4
            have hcc := Finset.card_le_card hsubF
            omega
          have hfind : ∃ l, top5.find? (fun l => decide (l ∉ st.2)) = some l := by
            rcases hex with ⟨l, hl1, hl2⟩
            have hs : (top5.find? (fun l => decide (l ∉ st.2))).isSome = true :=
              List.find?_isSome.mpr ⟨l, hl1, by simp [hl2]⟩
            exact Option.isSome_iff_exists.mp hs
          rcases hfind with ⟨l, hfl⟩
          simp only [hfl]
          have hlmem : l ∈ top5 := List.mem_of_find?_eq_some hfl
          have hlnot : l ∉ st.2 := by
            have hp := List.find?_some hfl
            simpa using hp
          have hlen2 : (st.1.set i (some l)).length = 5 := by
            rw [List.length_set]
            exact hlen
          have hcount2 : ((st.1.set i (some l)).filterMap id).length
              = (st.2 ++ [l]).length := by
            rw [filterMap_set_some (by omega) hd l, hcount, List.length_append]
            rfl
          have hnd2 : (st.2 ++ [l]).Nodup := by
            rw [List.nodup_append]
            refine ⟨hnd, List.nodup_singleton l, ?_⟩
            intro a ha hb
            rw [List.mem_singleton] at hb
            exact hlnot (hb ▸ ha)
          have hsub2 : ∀ c ∈ st.2 ++ [l], c ∈ top5 := by
            intro c hc
            rcases List.mem_append.mp hc with h | h
            · exact hsub c h
            · rw [List.mem_singleton] at h
              rw [h]
              exact hlmem
          obtain ⟨h1, h2⟩ := ih (st.1.set i (some l), st.2 ++ [l])
            (fun q hq => hlt q (List.mem_cons_of_mem i hq)) hlen2 hcount2 hnd2 hsub2
          refine ⟨h1, ?_⟩
          intro q hq
          rcases List.mem_cons.mp hq with he | hq2
          · rw [he]
            apply phase2Aux_keeps
            rw [getD_set_eq _ _ _ _ (by omega)]
            simp
          · exact h2 q hq2

/-- C6, amended: the frequency analysis is a pure function of the dictionary
(deterministic by construction), and its result has exactly 5 characters
whenever the words of the dictionary contain at least 5 distinct letters.
The original edge-case half of the claim fails: with fewer than 5 distinct
letters some positions are never filled and the join silently drops them, so
the result is shorter than 5 characters. -/
theorem C6_analysis_five_letters (ws : List Word) (_hne : ws ≠ [])
    (_hwlen : ∀ w ∈ ws, w.length = 5)
    (hdist : 5 ≤ (ws.flatMap id).toFinset.card) :
    (analysis ws).length = 5 := by
  have key : ∀ (posT : List (List (Char × Nat))) (top5 : List Char),
      top5.length = 5 → top5.Nodup →
      ((phase2Aux top5 (List.range 5)
          (phase1Aux posT top5 (List.replicate 5 none, []))).1.filterMap id).length = 5 := by
    intro posT top5 h5 hnd
    obtain ⟨p1len, p1count, p1nd, p1sub⟩ :=
      phase1Aux_inv posT top5 top5 (List.replicate 5 none, [])
        (by simp) (by rfl) List.nodup_nil
        (fun c hc => absurd hc (List.not_mem_nil c))
        (fun c hc => absurd hc (List.not_mem_nil c))
        hnd (fun c hc => hc)
    obtain ⟨p2len, p2fill⟩ :=
      phase2Aux_inv top5 h5 hnd (List.range 5) (phase1Aux posT top5 (List.replicate 5 none, []))
        (fun i hi => List.mem_range.mp hi) p1len p1count p1nd p1sub
    have hall : ∀ i, i <
        (phase2Aux top5 (List.range 5)
          (phase1Aux posT top5 (List.replicate 5 none, []))).1.length →
        (phase2Aux top5 (List.range 5)
          (phase1Aux posT top5 (List.replicate 5 none, []))).1.getD i none ≠ none := by
      intro i hi
      rw [p2len] at hi
      exact p2fill i (List.mem_range.mpr hi)
    rw [filterMap_length_of_all_some hall, p2len]
  have goal_eq : analysis ws =
      (phase2Aux
        ((sortDescBy (lookupD (tallyList (ws.flatMap id)))
            ((tallyList (ws.flatMap id)).map Prod.fst)).take 5)
        (List.range 5)
        (phase1Aux ((List.range 5).map (fun j => tallyList (ws.map (fun w => w.getD j '?'))))
          ((sortDescBy (lookupD (tallyList (ws.flatMap id)))
              ((tallyList (ws.flatMap id)).map Prod.fst)).take 5)
          (List.replicate 5 none, []))).1.filterMap id := rfl
  rw [goal_eq]
  have hkeyslen : ((tallyList (ws.flatMap id)).map Prod.fst).length
      = (ws.flatMap id).toFinset.card := tallyList_keys_length (ws.flatMap id)
  have hsortperm := sortDescBy_perm (lookupD (tallyList (ws.flatMap id)))
    ((tallyList (ws.flatMap id)).map Prod.fst)
  have hsortlen : (sortDescBy (lookupD (tallyList (ws.flatMap id)))
      ((tallyList (ws.flatMap id)).map Prod.fst)).length
      = ((tallyList (ws.flatMap id)).map Prod.fst).length := hsortperm.length_eq
  apply key
  · rw [List.length_take, hsortlen, hkeyslen]
    exact Nat.min_eq_left hdist
  · apply (List.take_sublist 5 _).nodup
    exact hsortperm.symm.nodup (tallyList_keys (ws.flatMap id)).1

/-- Witness for C6 at a concrete dictionary with 5 distinct letters. -/
theorem C6_analysis_five_letters_witness :
    (analysis [("abcde".toList)]).length = 5 :=
  C6_analysis_five_letters [("abcde".toList)] (by decide) (by decide) (by decide)

/-- C6, counterexample: the dictionary with the single word aaaaa is
non-empty and consists of 5-letter words, yet the analysis result has length
1, not 5 — with fewer than 5 distinct letters the unfilled positions are
dropped by the final join. -/
theorem C6_counterexample :
    ([("aaaaa".toList)] ≠ ([] : List Word)) ∧
    (∀ w ∈ [("aaaaa".toList)], w.length = 5) ∧
    (analysis [("aaaaa".toList)]).length ≠ 5 := by
  refine ⟨by decide, by decide, by decide⟩
